import Mathlib

set_option maxHeartbeats 1000000

/-!
Shallow embedding of the PairwiseRanker repository (src/Reranker/tree_rnn.py):
the tree data model (`Node` / `BinaryNode`), the tree linearizer
(`gen_nn_inputs`, `_get_leaf_vals`, `_get_tree_traversal`), and the numeric
tree-RNN computation (`TreeRNN.compute_tree`, `compute_tree_with_gate`,
`create_recursive_unit`, `create_leaf_unit`, `create_forget_gate_fun`,
`create_output_fn`, `predict`, `_check_input`).

The numeric model works over an arbitrary commutative ring (every tensor
operation on the claims' computation paths is a ring operation); the
transcendental activation functions (`tanh`, `sigmoid`, `softmax`) and the
embedding-table lookup are abstract parameters of the model, since the claims
under verification only concern the dataflow structure, not the analytic
properties of the activations.  Concrete evaluations instantiate the carrier
with `ℤ`.
-/

/-- Mirror of the Python `Node` data as seen by the linearizer: a value
(`None` allowed) and an ordered list of child slots, where a slot may hold
`None` (the `BinaryNode` subclass fills `children` with explicit `None`
placeholders).  The `label` field of the source is omitted: the claims never
touch labels. -/
inductive PyTree : Type where
  | node : Option Int → List (Option PyTree) → PyTree

/-- Value stored at a node (`node.val`). -/
def PyTree.val : PyTree → Option Int
  | .node v _ => v

/-- Child slot list of a node (`node.children`). -/
def PyTree.children : PyTree → List (Option PyTree)
  | .node _ cs => cs

/-- Leaf test used throughout the source (lines 115, 151):
`all(child is None for child in node.children)`.  A node with an empty
child list is also a leaf. -/
def PyTree.isLeafB (t : PyTree) : Bool := t.children.all (fun c => c.isNone)

mutual
/-- Number of nodes of the tree satisfying `p` (each node counted once). -/
def treeCountP (p : PyTree → Bool) : PyTree → Nat
  | .node v cs => (if p (.node v cs) then 1 else 0) + slotsCountP p cs
/-- Count of `p`-nodes over a list of child slots. -/
def slotsCountP (p : PyTree → Bool) : List (Option PyTree) → Nat
  | [] => 0
  | none :: r => slotsCountP p r
  | some c :: r => treeCountP p c + slotsCountP p r
end

/-- Total number of nodes of the tree. -/
def PyTree.numNodes (t : PyTree) : Nat := treeCountP (fun _ => true) t

/-- Number of leaf nodes of the tree. -/
def PyTree.numLeaves (t : PyTree) : Nat := treeCountP PyTree.isLeafB t

/-- A node occurrence during traversal: the path of child-slot indices from
the root, together with the subtree rooted there.  Paths play the role of
node identity (the Python code mutates `node.idx` in place). -/
abbrev PathPair := List Nat × PyTree

/-- Existing (non-`None`) children of slot list `cs`, starting at slot index
`j`, each tagged with its path. -/
def childPairsFrom (p : List Nat) (j : Nat) : List (Option PyTree) → List PathPair
  | [] => []
  | none :: r => childPairsFrom p (j+1) r
  | some c :: r => (p ++ [j], c) :: childPairsFrom p (j+1) r

/-- Existing children of a traversal pair. -/
def childPairs (pr : PathPair) : List PathPair := childPairsFrom pr.1 0 pr.2.children

/-- One BFS expansion step with children taken in order
(`_get_tree_traversal`, lines 139-140). -/
def nextLayer (l : List PathPair) : List PathPair := l.flatMap childPairs

/-- One BFS expansion step with children taken in reverse order
(`_get_leaf_vals`, line 118: `node.children[::-1]`).  Leaf nodes have no
existing children, so not expanding them (the `if`/`else` of lines 115-118)
produces the same next layer as expanding every node. -/
def nextLayerRev (l : List PathPair) : List PathPair :=
  l.flatMap (fun pr => (childPairs pr).reverse)

/-- Total node count of a layer; strictly decreases across BFS steps, so it
bounds the number of loop iterations. -/
def layerNodes (l : List PathPair) : Nat := (l.map (fun pr => pr.2.numNodes)).sum

/-- Fueled transcription of the `while layer:` BFS loops of the source.
`layerNodes l + 1` fuel always suffices (each pass strictly shrinks the
total node count), so the fueled function computes the same layers as the
unbounded loop. -/
def bfsLayers (step : List PathPair → List PathPair) : Nat → List PathPair → List (List PathPair)
  | 0, _ => []
  | f+1, l => if l.isEmpty then [] else l :: bfsLayers step f (step l)

/-- Starting layer `[root_node]`. -/
def rootPair (t : PyTree) : PathPair := ([], t)

/-- Layers of the schedule-construction BFS (`_get_tree_traversal`). -/
def layersOf (t : PyTree) : List (List PathPair) :=
  bfsLayers nextLayer (t.numNodes + 1) [rootPair t]

/-- Layers of the leaf-discovery BFS (`_get_leaf_vals`). -/
def layersRevOf (t : PyTree) : List (List PathPair) :=
  bfsLayers nextLayerRev (t.numNodes + 1) [rootPair t]

/-- `all_leaves` of `_get_leaf_vals`: the leaves in discovery order of the
reversed-children BFS (each layer contributes its leaf nodes in layer
order). -/
def leavesDisc (t : PyTree) : List PathPair :=
  ((layersRevOf t).flatten).filter (fun pr => pr.2.isLeafB)

/-- `reversed(all_leaves)` (line 123): leaf `i` of this list is assigned
position `i`. -/
def leafSeq (t : PyTree) : List PathPair := (leavesDisc t).reverse

/-- The leaf value sequence `vals` returned by `_get_leaf_vals`. -/
def leafVals (t : PyTree) : List (Option Int) := (leafSeq t).map (fun pr => pr.2.val)

/-- Position assigned to the node at path `q` during leaf discovery
(`leaf.idx = idx`, line 124), if `q` is one of the collected leaves. -/
def leafIdxOf (t : PyTree) (q : List Nat) : Option Nat :=
  (leafSeq t).findIdx? (fun pr => decide (pr.1 = q))

/-- Nodes in schedule-processing order: layers deepest first, layer order
within each layer (lines 147-148). -/
def dseq (t : PyTree) : List PathPair := ((layersOf t).reverse).flatten

/-- Nodes that receive a schedule row: those whose `idx` is still unset when
reached, i.e. the ones not assigned during leaf discovery (lines 149-152). -/
def internalSeq (t : PyTree) : List PathPair :=
  (dseq t).filter (fun pr => (leafIdxOf t pr.1).isNone)

/-- Row number of the internal node at path `q`, if any. -/
def internalIdxOf (t : PyTree) (q : List Nat) : Option Nat :=
  (internalSeq t).findIdx? (fun pr => decide (pr.1 = q))

/-- The position stored in `node.idx` for the node at path `q`: leaves get
their leaf-discovery position, other scheduled nodes get
`start_idx + row number` where `start_idx = len(x)` is the number of
collected leaves (line 84).  The final `-1` branch is unreachable for the
paths at which the source reads `child.idx` (the source asserts this,
line 158). -/
def idxVal (t : PyTree) (q : List Nat) : Int :=
  match leafIdxOf t q with
  | some i => (i : Int)
  | none =>
    match internalIdxOf t q with
    | some k => ((leafSeq t).length + k : Int)
    | none => -1

/-- `child_idxs` (lines 154-155): per child slot, `-1` for an empty slot,
otherwise the child's assigned position. -/
def childSlotsFrom (t : PyTree) (p : List Nat) (j : Nat) : List (Option PyTree) → List Int
  | [] => []
  | none :: r => -1 :: childSlotsFrom t p (j+1) r
  | some _ :: r => idxVal t (p ++ [j]) :: childSlotsFrom t p (j+1) r

/-- Padding of a row's child slots to `max_degree` entries (lines 156-157).
`List.replicate (d - n) (-1)` is empty when `n ≥ d`, exactly like
`[-1] * (max_degree - len(child_idxs))` in Python. -/
def padSlots (md : Option Nat) (cids : List Int) : List Int :=
  match md with
  | some d => cids ++ List.replicate (d - cids.length) (-1)
  | none => cids

/-- One schedule row: padded child positions followed by the node's own
position (line 161). -/
def schedRow (t : PyTree) (md : Option Nat) (i : Nat) (pr : PathPair) : List Int :=
  padSlots md (childSlotsFrom t pr.1 0 pr.2.children) ++ [((leafSeq t).length + i : Int)]

/-- The schedule `tree` returned by `_get_tree_traversal` (empty when the
root has no child slots, line 132). -/
def treeSched (t : PyTree) (md : Option Nat) : List (List Int) :=
  if t.children.isEmpty then []
  else (internalSeq t).enum.map (fun ik => schedRow t md ik.1 ik.2)

/-- `internal_vals` (line 162): internal-node values in schedule order, with
an absent value replaced by `-1`. -/
def internalX (t : PyTree) : List Int :=
  if t.children.isEmpty then []
  else (internalSeq t).map (fun pr => match pr.2.val with | some v => v | none => -1)

/-- Model of `gen_nn_inputs` (lines 69-100, `with_labels = False` path): the
two `assert`s that can fail (line 85: every leaf value present; line 90:
every row has length `max_degree + 1`) are modelled as `none` results. -/
def genNNInputs (t : PyTree) (md : Option Nat) (onlyLeavesHaveVals : Bool) :
    Option (List Int × List (List Int)) :=
  let xv := leafVals t
  let tr := treeSched t md
  if xv.all (fun v => v.isSome) then
    let x0 := xv.filterMap id
    let x1 := if onlyLeavesHaveVals then x0 else x0 ++ internalX t
    match md with
    | some d => if tr.all (fun r => r.length == d + 1) then some (x1, tr) else none
    | none => some (x1, tr)
  else none

/-- Binary tree of claim C2: a root (no own value) whose two children are
leaves with vocabulary ids 3 and 7. -/
def exTree : PyTree :=
  PyTree.node none [some (PyTree.node (some 3) []), some (PyTree.node (some 7) [])]

variable {R : Type} [CommRing R]

/-- Elementwise sum of two vectors (`+` on tensors). -/
def vadd (a b : List R) : List R := List.zipWith (· + ·) a b

/-- Elementwise difference of two vectors (`-` on tensors). -/
def vsub (a b : List R) : List R := List.zipWith (· - ·) a b

/-- Elementwise (Hadamard) product of two vectors (`*` on tensors). -/
def vmulE (a b : List R) : List R := List.zipWith (· * ·) a b

/-- Dot product of two vectors. -/
def dotL (a b : List R) : R := (List.zipWith (· * ·) a b).sum

/-- Matrix-vector product `T.dot(M, v)` with the matrix stored row-wise. -/
def matVec (M : List (List R)) (v : List R) : List R := M.map (fun r => dotL r v)

/-- The zero vector of dimension `d`. -/
def zeroVec (d : Nat) : List R := List.replicate d 0

/-- `T.sum(rows, axis=0)`: sum of a stack of `d`-dimensional row vectors. -/
def vsum (d : Nat) (rows : List (List R)) : List R := rows.foldr vadd (zeroVec d)

/-- Parameters and shape configuration of a `TreeRNN` instance.  Weight
matrices and bias vectors are concrete rational tensors; the embedding
lookup `embRow i` models `self.embeddings[i]` (row `i` of the embedding
matrix, numpy semantics of a `-1` index included in the abstraction); the
activation functions `tanhF`, `sigmoidF` and the output normalisation
`softmaxF` are abstract, as their analytic definitions play no part in the
claims. -/
structure RNNParams (R : Type) where
  degree : Nat
  hiddenDim : Nat
  irregularTree : Bool
  embRow : Int → List R
  W_hx : List (List R)
  W_hh : List (List R)
  b_h : List R
  W_gate : List (List R)
  U_gate : List (List R)
  b_gate : List R
  W_out : List (List R)
  b_out : List R
  tanhF : R → R
  sigmoidF : R → R
  softmaxF : List R → List R

/-- `create_recursive_unit` (lines 308-317):
`h = tanh(b_h + dot(W_hx, parent_x) + dot(W_hh, sum(child_h, axis=0)))`.
The `child_exists` parameter of the source unit is never read and is
omitted here. -/
def recursiveUnit (P : RNNParams R) (parentX : List R) (childH : List (List R)) : List R :=
  let hTilde := vsum P.hiddenDim childH
  (vadd (vadd P.b_h (matVec P.W_hx parentX)) (matVec P.W_hh hTilde)).map P.tanhF

/-- `create_leaf_unit` (lines 319-323): the recursive unit applied to the
leaf's embedding and a `degree × hidden_dim` stack of zero child states. -/
def leafUnit (P : RNNParams R) (leafX : List R) : List R :=
  recursiveUnit P leafX (List.replicate P.degree (zeroVec P.hiddenDim))

/-- `create_forget_gate_fun` (lines 290-306):
`parent_h - sigmoid(dot(W_gate, parent_h) + dot(U_gate, compare_h) + b_gate) * compare_h`.
Defined by `TreeRNN.__init__` as `self.forget_unit` but never invoked by
any computation path of the source. -/
def forgetUnit (P : RNNParams R) (parentH compareH : List R) : List R :=
  let f := (vadd (vadd (matVec P.W_gate parentH) (matVec P.U_gate compareH)) P.b_gate).map
    P.sigmoidF
  vsub parentH (vmulE f compareH)

/-- `create_output_fn` (lines 270-278): softmax of an affine map of the
final state. -/
def outputFn (P : RNNParams R) (finalState : List R) : List R :=
  P.softmaxF (vadd (matVec P.W_out finalState) P.b_out)

/-- Embedding of one input id with the zero-masking of line 209:
`emb_x = embeddings[x] * T.neq(x, -1)`. -/
def maskedEmb (P : RNNParams R) (xi : Int) : List R :=
  (P.embRow xi).map (fun c => c * (if xi = -1 then 0 else 1))

/-- Row gather `node_h[i]` with numpy semantics for negative indices
(`-len ≤ i < 0` wraps around from the end).  An index outside
`[-len, len)` raises in the source; the claims only exercise in-range
accesses, and the gathered row is zero-masked whenever the child slot is
absent, so the default is immaterial. -/
def rowLookup (d : Nat) (rows : List (List R)) (i : Int) : List R :=
  if 0 ≤ i then rows.getD i.toNat (zeroVec d)
  else rows.getD (i + rows.length).toNat (zeroVec d)

/-- `_recurrence` of `compute_tree` (lines 382-389): gather the child states
from the rolling window `node_h` (offset `num_leaves*int(irregular) - t`
per existing child), zero-mask missing children, compose the parent state,
and slide the window.  The `compare_state` parameter of the source closure
is never supplied by `theano.scan` nor read, and is omitted. -/
def recurrenceStep (P : RNNParams R) (numLeaves : Nat) (curEmb : List R) (nodeInfo : List Int)
    (t : Nat) (nodeH : List (List R)) : List (List R) × List R :=
  let irr : Int := if P.irregularTree then 1 else 0
  let childH := nodeInfo.map (fun i =>
    let e : Bool := -1 < i
    let off : Int := (numLeaves : Int) * irr - (if e then (t : Int) else 0)
    (rowLookup P.hiddenDim nodeH (i + off)).map (fun c => c * (if e then 1 else 0)))
  let parentH := recursiveUnit P curEmb childH
  (((nodeH ++ [parentH]).drop 1), parentH)

/-- The `theano.scan` of `compute_tree` (lines 392-396): iterate
`recurrenceStep` over the zipped sequences, collecting the per-step
`parent_h` outputs. -/
def scanLoop (P : RNNParams R) (numLeaves : Nat) :
    List (List R) → List (List R × (List Int × Nat)) → List (List R)
  | _, [] => []
  | nodeH, (e, info, t) :: rest =>
    let st := recurrenceStep P numLeaves e info t nodeH
    st.2 :: scanLoop P numLeaves st.1 rest

/-- `compute_tree` (lines 362-398): leaf states via the leaf unit, then the
scan over the schedule; returns leaf states followed by one state per
schedule row. -/
def computeTree (P : RNNParams R) (embX : List (List R)) (tree : List (List Int)) :
    List (List R) :=
  let numNodes := tree.length
  let numLeaves := embX.length - numNodes
  let leafH := (embX.take numLeaves).map (leafUnit P)
  let initH := if P.irregularTree then leafH ++ leafH else leafH
  leafH ++ scanLoop P numLeaves initH ((embX.drop numLeaves).zip (tree.zip (List.range numNodes)))

/-- `_recurrence` of `compute_tree_with_gate` (lines 344-351), transcribed
from its own source lines: the body is character-for-character the same as
the `compute_tree` recurrence, and in particular never calls
`self.forget_unit`. -/
def gateRecurrenceStep (P : RNNParams R) (numLeaves : Nat) (curEmb : List R) (nodeInfo : List Int)
    (t : Nat) (nodeH : List (List R)) : List (List R) × List R :=
  let irr : Int := if P.irregularTree then 1 else 0
  let childH := nodeInfo.map (fun i =>
    let e : Bool := -1 < i
    let off : Int := (numLeaves : Int) * irr - (if e then (t : Int) else 0)
    (rowLookup P.hiddenDim nodeH (i + off)).map (fun c => c * (if e then 1 else 0)))
  let parentH := recursiveUnit P curEmb childH
  (((nodeH ++ [parentH]).drop 1), parentH)

/-- The `theano.scan` of `compute_tree_with_gate` (lines 354-358). -/
def gateScanLoop (P : RNNParams R) (numLeaves : Nat) :
    List (List R) → List (List R × (List Int × Nat)) → List (List R)
  | _, [] => []
  | nodeH, (e, info, t) :: rest =>
    let st := gateRecurrenceStep P numLeaves e info t nodeH
    st.2 :: gateScanLoop P numLeaves st.1 rest

/-- `compute_tree_with_gate` (lines 325-360).  The third argument
`treeStates` models the `tree_states` parameter (the externally supplied
Hidden State Table); the source binds it but never passes it into the scan
nor reads it anywhere in the function body. -/
def computeTreeWithGate (P : RNNParams R) (embX : List (List R)) (tree : List (List Int))
    (treeStates : List (List R)) : List (List R) :=
  let numNodes := tree.length
  let numLeaves := embX.length - numNodes
  let leafH := (embX.take numLeaves).map (leafUnit P)
  let initH := if P.irregularTree then leafH ++ leafH else leafH
  leafH ++
    gateScanLoop P numLeaves initH ((embX.drop numLeaves).zip (tree.zip (List.range numNodes)))

/-- `TreeRNN._check_input` (lines 241-247).  The schedule list is converted
to a numpy array by `gen_nn_inputs`; when the schedule is empty,
`np.array([], dtype='int32')` is one-dimensional (shape `(0,)`), so the
column access `tree[:, -1]` at line 242 raises an `IndexError` before any
assertion is evaluated — modelled as `none`.  (With a non-empty schedule
all rows have uniform length `max_degree + 1` here, so the array is
two-dimensional and the column accesses are well defined.)  Otherwise the
result is `some` of the conjunction of the assertions: the last column of
`tree` must be `arange(len(x) - len(tree), len(x))`, and unless
`irregular_tree` is set, the first two child columns must each be `-1` or
at least `row index - 1`. -/
def checkInput (irregular : Bool) (x : List Int) (tree : List (List Int)) : Option Bool :=
  if tree.isEmpty then none
  else some
    (decide (tree.map (fun r => r.getLastD (-1)) =
        (List.range' (x.length - tree.length) tree.length).map (fun n => (n : Int))) &&
      (irregular ||
        ((List.range tree.length).all (fun i =>
            decide ((i : Int) ≤ (tree.getD i []).getD 0 0 + 1) ||
              (tree.getD i []).getD 0 0 == -1) &&
         (List.range tree.length).all (fun i =>
            decide ((i : Int) ≤ (tree.getD i []).getD 1 0 + 1) ||
              (tree.getD i []).getD 1 0 == -1))))

/-- `TreeRNN.predict` (lines 257-261): linearize with
`max_degree = self.degree` and `only_leaves_have_vals=False`, check the
input, embed and zero-mask the value sequence, run the plain (non-gated)
`compute_tree` on `tree[:, :-1]`, and return the output projection of the
final state `tree_states[-1]` (graph `pred_y1`, lines 218-220 and 238-239).
Assertion failures and `_check_input`'s `IndexError` on an empty schedule
are modelled as `none` (the slice `tree[:, :-1]` at line 261 would raise
on the one-dimensional empty array as well, but `_check_input` raises
first). -/
def predictM (P : RNNParams R) (t : PyTree) : Option (List R) :=
  match genNNInputs t (some P.degree) false with
  | none => none
  | some (x, tree) =>
    match checkInput P.irregularTree x tree with
    | none => none
    | some b =>
      if b then
        let embx := x.map (maskedEmb P)
        let states := computeTree P embx (tree.map (fun r => r.dropLast))
        some (outputFn P (states.getLastD (zeroVec P.hiddenDim)))
      else none

/-- Mirror of the mutable `Node`/`BinaryNode` class for the aggregate-cache
claims: value, child slots, and the three cached aggregate fields
`height`, `size`, `num_leaves`. -/
inductive CNode : Type where
  | node : Option Int → List (Option CNode) → Nat → Nat → Nat → CNode

/-- Cached `height` field. -/
def CNode.heightC : CNode → Nat
  | .node _ _ h _ _ => h

/-- Cached `size` field. -/
def CNode.sizeC : CNode → Nat
  | .node _ _ _ s _ => s

/-- Cached `num_leaves` field. -/
def CNode.numLeavesC : CNode → Nat
  | .node _ _ _ _ nl => nl

/-- Child slot list. -/
def CNode.childrenC : CNode → List (Option CNode)
  | .node _ cs _ _ _ => cs

/-- A freshly constructed node (`Node.__init__`, lines 10-18): no children,
`height = size = num_leaves = 1`. -/
def CNode.freshC (v : Option Int) : CNode := .node v [] 1 1 1

/-- The recomputation a single `_update` call performs on one node
(lines 20-24): `height = 1 + max([child.height ...] or [0])`,
`size = 1 + sum(child.size ...)`,
`num_leaves = all(child is None ...) + sum(child.num_leaves ...)`,
each read from the children's cached fields. -/
def recompute : CNode → CNode
  | .node v cs _ _ _ =>
    .node v cs
      (1 + ((cs.filterMap id).map CNode.heightC).foldr max 0)
      (1 + ((cs.filterMap id).map CNode.sizeC).sum)
      ((if cs.all (fun c => c.isNone) then 1 else 0) +
        ((cs.filterMap id).map CNode.numLeavesC).sum)

/-- Apply a structural mutation `op` to the node at path `p` and recompute
the cached aggregates of that node and of every ancestor on the way back to
the root, exactly as `_update`'s `self.parent._update()` recursion does
(lines 25-26): each ancestor is recomputed from its children's current
cached fields after the mutated subtree has been substituted in. -/
def updatePath (op : CNode → Option CNode) : CNode → List Nat → Option CNode
  | n, [] => (op n).map recompute
  | .node v cs h s nl, j :: p =>
    match cs.getD j none with
    | none => none
    | some c =>
      (updatePath op c p).map (fun c2 => recompute (.node v (cs.set j (some c2)) h s nl))

/-- Subtree of a cached node at a path of child-slot indices. -/
def subC : CNode → List Nat → Option CNode
  | n, [] => some n
  | n, j :: p =>
    match n.childrenC.getD j none with
    | none => none
    | some c => subC c p

/-- `Node.add_child` (lines 28-31) before the `_update` recomputation:
append one child slot. -/
def addChildOp (c : CNode) : CNode → Option CNode
  | .node v cs h s nl => some (.node v (cs ++ [some c]) h s nl)

/-- `Node.add_children` (lines 33-37) before the `_update` recomputation:
append several child slots. -/
def addChildrenOp (l : List CNode) : CNode → Option CNode
  | .node v cs h s nl => some (.node v (cs ++ l.map some) h s nl)

/-- `BinaryNode.add_left` (lines 44-49) before the `_update` recomputation:
on an empty slot list install `[node, None]`, otherwise overwrite slot 0. -/
def addLeftOp (c : CNode) : CNode → Option CNode
  | .node v cs h s nl =>
    some (.node v (if cs.isEmpty then [some c, none] else cs.set 0 (some c)) h s nl)

/-- `BinaryNode.add_right` (lines 51-56) before the `_update` recomputation:
on an empty slot list install `[None, node]`, otherwise overwrite slot 1
(an `IndexError`, possible when `0 < len(children) < 2`, is modelled as
`none`). -/
def addRightOp (c : CNode) : CNode → Option CNode
  | .node v cs h s nl =>
    if cs.isEmpty then some (.node v [none, some c] h s nl)
    else if 1 < cs.length then some (.node v (cs.set 1 (some c)) h s nl)
    else none

/-- The mutation operations offered by the `Node`/`BinaryNode` API. -/
def isMutation (op : CNode → Option CNode) : Prop :=
  (∃ c, op = addChildOp c) ∨ (∃ l, op = addChildrenOp l) ∨
  (∃ c, op = addLeftOp c) ∨ (∃ c, op = addRightOp c)

/-- The per-node aggregate-consistency equations of the claim: cached height
is one plus the maximum of the present children's cached heights, cached
size is one plus the sum of their cached sizes, and the cached leaf count is
the indicator of having no present children plus the sum of their cached
leaf counts. -/
def localInv (n : CNode) : Prop :=
  n.heightC = 1 + ((n.childrenC.filterMap id).map CNode.heightC).foldr max 0 ∧
  n.sizeC = 1 + ((n.childrenC.filterMap id).map CNode.sizeC).sum ∧
  n.numLeavesC = (if n.childrenC.all (fun c => c.isNone) then 1 else 0) +
    ((n.childrenC.filterMap id).map CNode.numLeavesC).sum

/-- The tree contains a leaf node with an absent value. -/
def hasValuelessLeaf (t : PyTree) : Prop :=
  0 < treeCountP (fun n => n.isLeafB && n.val.isNone) t

/-- The tree contains a node with more than `d` present (non-`None`)
children. -/
def hasArityOver (d : Nat) (t : PyTree) : Prop :=
  0 < treeCountP (fun n => decide (d < (n.children.filterMap id).length)) t

/-- The leaf order described by the specification: process the BFS layers
deepest first and collect, inside each layer, its leaf nodes left to
right. -/
def leavesDeepestFirst (t : PyTree) : List PathPair :=
  (((layersOf t).reverse).map (fun L => L.filter (fun pr => pr.2.isLeafB))).flatten

/-- A small concrete parameter set (integer carrier) used by the
concrete-evaluation theorems: two-dimensional states, identity activations,
identity weight matrices. -/
def PX : RNNParams ℤ where
  degree := 2
  hiddenDim := 2
  irregularTree := false
  embRow := fun i => [(i : ℤ), 1]
  W_hx := [[1, 0], [0, 1]]
  W_hh := [[1, 0], [0, 1]]
  b_h := [0, 0]
  W_gate := [[1, 0], [0, 1]]
  U_gate := [[1, 0], [0, 1]]
  b_gate := [0, 0]
  W_out := [[1, 0], [0, 1]]
  b_out := [0, 0]
  tanhF := fun q => q
  sigmoidF := fun q => q
  softmaxF := fun v => v

/-- Embedded values for a three-node input (two leaves, one internal node). -/
def exEmbX : List (List ℤ) := [[1, 0], [0, 1], [1, 1]]

/-- Schedule (child columns only, as passed to the computation graph) for
the three-node input: one internal node whose children sit at positions 0
and 1. -/
def exTr : List (List Int) := [[0, 1]]

/-- A first concrete Hidden State Table. -/
def tblA : List (List ℤ) := [[1, 1], [2, 2], [3, 3]]

/-- A second, different concrete Hidden State Table. -/
def tblB : List (List ℤ) := [[9, 9], [8, 8], [7, 7]]

/-- A single node whose value is absent: its one node is a leaf without a
value. -/
def badLeafTree : PyTree := PyTree.node none []

/-- A root with two present children, used with `max_degree = 1` to exceed
the arity bound. -/
def arityTree : PyTree :=
  PyTree.node (some 1) [some (PyTree.node (some 2) []), some (PyTree.node (some 3) [])]

/-- A four-node tree: root with an internal child (one present grandchild
with id 4, one empty slot) and a leaf child with id 5. -/
def exTree2 : PyTree :=
  PyTree.node none
    [some (PyTree.node none [some (PyTree.node (some 4) []), none]),
     some (PyTree.node (some 5) [])]

/-- Concrete starting tree for the mutation witness: a root with one leaf
child. -/
def c8start : CNode := CNode.node (some 0) [some (CNode.freshC (some 1))] 2 2 1

/-- The child appended by the witness mutation. -/
def c8child : CNode := CNode.freshC (some 5)

/-- Result of appending `c8child` under the child at slot 0 of `c8start`. -/
def c8res : CNode := (updatePath (addChildOp c8child) c8start [0]).getD (CNode.freshC none)

theorem vadd_left_comm (a b c : List R) : vadd a (vadd b c) = vadd b (vadd a c) := by
  induction a generalizing b c with
  | nil => cases b <;> simp [vadd]
  | cons x xs ih =>
    cases b with
    | nil => simp [vadd]
    | cons y ys =>
      cases c with
      | nil => simp [vadd]
      | cons z zs =>
        simp only [vadd, List.zipWith_cons_cons] at *
        refine congrArg₂ (· :: ·) (by ring) (ih ys zs)

theorem vsum_perm (d : Nat) {ch ch2 : List (List R)} (h : ch.Perm ch2) :
    vsum d ch = vsum d ch2 := by
  haveI : LeftCommutative (vadd : List R → List R → List R) := ⟨vadd_left_comm⟩
  exact List.Perm.foldr_eq h (zeroVec d)

theorem localInv_recompute (n : CNode) : localInv (recompute n) := by
  obtain ⟨v, cs, h, s, nl⟩ := n
  exact ⟨rfl, rfl, rfl⟩

theorem gateScanLoop_eq_scanLoop (P : RNNParams R) (Wg Ug : List (List R)) (bg : List R)
    (nl : Nat) (h : List (List R)) (s : List (List R × (List Int × Nat))) :
    gateScanLoop { P with W_gate := Wg, U_gate := Ug, b_gate := bg } nl h s =
      scanLoop P nl h s := by
  induction s generalizing h with
  | nil => rfl
  | cons a rest ih =>
    obtain ⟨e, info, t⟩ := a
    show (recurrenceStep P nl e info t h).2 ::
        gateScanLoop { P with W_gate := Wg, U_gate := Ug, b_gate := bg } nl
          (recurrenceStep P nl e info t h).1 rest =
      (recurrenceStep P nl e info t h).2 :: scanLoop P nl (recurrenceStep P nl e info t h).1 rest
    exact congrArg _ (ih _)

/-- C1: the claim says `compute_tree_with_gate` combines each freshly
composed parent state with the supplied comparison state through the gating
formula, so that its output depends on the supplied table.  The code never
does: at a concrete three-node input the function returns identical states
for two different comparison tables, and its root state differs from what
the gating formula `parent_h - sigmoid(W·parent_h + U·compare_h + b) ⊙
compare_h` would produce; the code ignores the table entirely. -/
theorem claim_C1_gate_ignores_table :
    computeTreeWithGate PX exEmbX exTr tblA = computeTreeWithGate PX exEmbX exTr tblB ∧
    tblA ≠ tblB ∧
    (computeTreeWithGate PX exEmbX exTr tblA).getLastD [] ≠
      forgetUnit PX ((computeTree PX exEmbX exTr).getLastD []) (tblA.getLastD []) :=
  ⟨rfl, by decide, by decide⟩

/-- C2 counterexample: for the binary tree with leaves 3 and 7 under a root,
linearization with `max_degree = 2` does not produce the schedule row
`[0, 1, -1, 2]` stated by the claim. -/
theorem claim_C2_cex : genNNInputs exTree (some 2) true ≠ some ([3, 7], [[0, 1, -1, 2]]) := by
  decide

/-- C2 (amended): for the binary tree with leaves 3 and 7 under a root,
linearization with `max_degree = 2` produces the leaf value sequence
`[3, 7]` (positions 0 and 1) and exactly one schedule row `[0, 1, 2]` —
child positions 0 and 1 followed by the own position 2, with no `-1`
padding because the root already has `max_degree` child slots. -/
theorem claim_C2_two_leaf_linearization :
    genNNInputs exTree (some 2) true = some ([3, 7], [[0, 1, 2]]) := by decide

/-- C3: `compute_tree_with_gate` returns exactly the states of
`compute_tree` on the same embedded values and schedule, for every
comparison table and for arbitrary values of the gating parameters
`W_gate`, `U_gate`, `b_gate`: the table is never passed into the scan
recurrence and the forget-gate unit is never invoked. -/
theorem claim_C3_gate_equals_plain (P : RNNParams R) (Wg Ug : List (List R)) (bg : List R)
    (embX : List (List R)) (tree : List (List Int)) (tbl : List (List R)) :
    computeTreeWithGate { P with W_gate := Wg, U_gate := Ug, b_gate := bg } embX tree tbl =
      computeTree P embX tree :=
  congrArg (fun s => ((embX.take (embX.length - tree.length)).map (leafUnit P)) ++ s)
    (gateScanLoop_eq_scanLoop P Wg Ug bg (embX.length - tree.length)
      (if P.irregularTree then
        ((embX.take (embX.length - tree.length)).map (leafUnit P)) ++
          ((embX.take (embX.length - tree.length)).map (leafUnit P))
      else (embX.take (embX.length - tree.length)).map (leafUnit P))
      ((embX.drop (embX.length - tree.length)).zip (tree.zip (List.range tree.length))))

/-- C4: the claim (and spec §8) says `predict` on a single-leaf tree
returns the output projection of the leaf-case composition applied to that
leaf's embedding.  The code never returns anything on that input: the
linearization succeeds with `x = [v]` and an empty schedule, but
`np.array([])` is one-dimensional, so `_check_input`'s `tree[:, -1]`
(line 242) raises an `IndexError` and `predict` errors out — evaluated
here at the failing input for every parameter set. -/
theorem claim_C4_predict_single_leaf_errors (P : RNNParams R) (v : Int) :
    genNNInputs (PyTree.node (some v) []) (some P.degree) false =
      some ([v], ([] : List (List Int))) ∧
    checkInput P.irregularTree [v] [] = none ∧
    predictM P (PyTree.node (some v) []) = none :=
  ⟨rfl, rfl, rfl⟩

/-- C9: the recursive composition unit computes
`tanh(b_h + W_hx·ownValue + W_hh·(sum of child states))`, and is therefore
insensitive to any permutation of the stacked child states (children are
summed, not concatenated). -/
theorem claim_C9_unit_formula_and_perm (P : RNNParams R) (x : List R)
    (ch ch2 : List (List R)) (h : ch.Perm ch2) :
    recursiveUnit P x ch =
      (vadd (vadd P.b_h (matVec P.W_hx x)) (matVec P.W_hh (vsum P.hiddenDim ch))).map P.tanhF ∧
    recursiveUnit P x ch = recursiveUnit P x ch2 := by
  refine ⟨rfl, ?_⟩
  simp only [recursiveUnit]
  rw [vsum_perm P.hiddenDim h]

/-- C9 witness: a concrete permuted pair of child stacks over `ℤ`. -/
theorem claim_C9_witness :
    recursiveUnit PX [5, 5] [[1, 2], [3, 4]] =
      (vadd (vadd PX.b_h (matVec PX.W_hx [5, 5]))
        (matVec PX.W_hh (vsum PX.hiddenDim [[1, 2], [3, 4]]))).map PX.tanhF ∧
    recursiveUnit PX [5, 5] [[1, 2], [3, 4]] = recursiveUnit PX [5, 5] [[3, 4], [1, 2]] :=
  claim_C9_unit_formula_and_perm PX [5, 5] [[1, 2], [3, 4]] [[3, 4], [1, 2]] (by decide)

/-- C8: after a structural mutation (`add_child`, `add_children`,
`add_left`, `add_right`) at any position of any tree, the mutated node and
every ancestor up to the root satisfy the aggregate-consistency equations
(height is one plus the maximum child height, size is one plus the sum of
child sizes, leaf count is the no-present-children indicator plus the sum
of child leaf counts).  Since the starting tree is arbitrary, the statement
covers the last step of any sequence of mutations. -/
theorem claim_C8_aggregates_after_mutation (op : CNode → Option CNode) (hop : isMutation op) :
    ∀ (p : List Nat) (t r : CNode) (q : List Nat),
      updatePath op t p = some r → (∃ s2, q ++ s2 = p) →
      ∃ n, subC r q = some n ∧ localInv n := by
  clear hop
  intro p
  induction p with
  | nil =>
    intro t r q hr hq
    obtain ⟨s2, hs2⟩ := hq
    obtain ⟨rfl, rfl⟩ := List.append_eq_nil.mp hs2
    simp only [updatePath] at hr
    obtain ⟨u, _, hu⟩ := Option.map_eq_some'.mp hr
    exact ⟨r, rfl, hu ▸ localInv_recompute u⟩
  | cons j p ih =>
    intro t r q hr hq
    obtain ⟨v, cs, hh, ss, nl⟩ := t
    simp only [updatePath] at hr
    cases hc : cs.getD j none with
    | none => rw [hc] at hr; exact absurd hr (by simp)
    | some c =>
      rw [hc] at hr
      obtain ⟨c2, hc2, hr2⟩ := Option.map_eq_some'.mp hr
      obtain ⟨s2, hs2⟩ := hq
      cases q with
      | nil => exact ⟨r, rfl, hr2 ▸ localInv_recompute _⟩
      | cons j2 q2 =>
        have hj : j2 = j := by injection hs2
        have hq2 : q2 ++ s2 = p := by injection hs2
        rw [hj]
        have hjlen : j < cs.length := by
          by_contra hcon
          rw [List.getD_eq_getElem?_getD, List.getElem?_eq_none (by omega)] at hc
          simp at hc
        have hsub : subC r (j :: q2) = subC c2 q2 := by
          rw [← hr2]
          show (match (cs.set j (some c2)).getD j none with
            | none => none
            | some c => subC c q2) = subC c2 q2
          rw [List.getD_eq_getElem?_getD, List.getElem?_set_self (by simpa using hjlen)]
          rfl
        rw [hsub]
        exact ih c c2 q2 hc2 ⟨s2, hq2⟩

/-- C8 witness: appending a child below the left child of a concrete
two-node tree; the mutated node satisfies the aggregate equations. -/
theorem claim_C8_witness : ∃ n, subC c8res [0] = some n ∧ localInv n :=
  claim_C8_aggregates_after_mutation (addChildOp c8child) (Or.inl ⟨c8child, rfl⟩)
    [0] c8start c8res [0] rfl ⟨[], rfl⟩

theorem treeCountP_eq (q : PyTree → Bool) (t : PyTree) :
    treeCountP q t = (if q t then 1 else 0) + slotsCountP q t.children := by
  cases t
  rfl

theorem childPairsFrom_countP_sum (q : PyTree → Bool) (p : List Nat) :
    ∀ (j : Nat) (cs : List (Option PyTree)),
      ((childPairsFrom p j cs).map (fun pr => treeCountP q pr.2)).sum = slotsCountP q cs := by
  intro j cs
  induction cs generalizing j with
  | nil => rfl
  | cons c r ih =>
    cases c with
    | none => simpa only [childPairsFrom, slotsCountP] using ih (j + 1)
    | some c0 =>
      simp only [childPairsFrom, slotsCountP, List.map_cons, List.sum_cons]
      rw [ih (j + 1)]

theorem layer_count_step (q : PyTree → Bool) (l : List PathPair) :
    (l.map (fun pr => treeCountP q pr.2)).sum =
      l.countP (fun pr => q pr.2) + ((nextLayer l).map (fun pr => treeCountP q pr.2)).sum := by
  induction l with
  | nil => rfl
  | cons a l ih =>
    have h1 : ((childPairs a).map (fun pr => treeCountP q pr.2)).sum =
        slotsCountP q a.2.children := childPairsFrom_countP_sum q a.1 0 a.2.children
    simp only [List.map_cons, List.sum_cons, List.countP_cons, nextLayer, List.flatMap_cons,
      List.map_append, List.sum_append] at *
    rw [treeCountP_eq q a.2, h1] at *
    omega

theorem layer_count_step_rev (q : PyTree → Bool) (l : List PathPair) :
    (l.map (fun pr => treeCountP q pr.2)).sum =
      l.countP (fun pr => q pr.2) + ((nextLayerRev l).map (fun pr => treeCountP q pr.2)).sum := by
  have h2 : ((nextLayerRev l).map (fun pr => treeCountP q pr.2)).sum =
      ((nextLayer l).map (fun pr => treeCountP q pr.2)).sum := by
    simp only [nextLayerRev, nextLayer]
    induction l with
    | nil => rfl
    | cons a l ih =>
      simp only [List.flatMap_cons, List.map_append, List.sum_append, List.map_reverse,
        List.sum_reverse]
      omega
  rw [h2]
  exact layer_count_step q l

theorem layerNodes_nextLayer (l : List PathPair) :
    layerNodes (nextLayer l) + l.length = layerNodes l := by
  induction l with
  | nil => rfl
  | cons a l ih =>
    have h1 : ((childPairs a).map (fun pr => treeCountP (fun _ => true) pr.2)).sum =
        slotsCountP (fun _ => true) a.2.children :=
      childPairsFrom_countP_sum (fun _ => true) a.1 0 a.2.children
    have h2 : a.2.numNodes = 1 + slotsCountP (fun _ => true) a.2.children := treeCountP_eq _ a.2
    simp only [layerNodes, nextLayer, List.flatMap_cons, List.map_append, List.sum_append,
      List.map_cons, List.sum_cons, List.length_cons, PyTree.numNodes] at *
    omega

theorem layerNodes_nextLayerRev (l : List PathPair) :
    layerNodes (nextLayerRev l) + l.length = layerNodes l := by
  have h2 : layerNodes (nextLayerRev l) = layerNodes (nextLayer l) := by
    induction l with
    | nil => rfl
    | cons a l ih =>
      simp only [layerNodes, nextLayerRev, nextLayer, List.flatMap_cons, List.map_append,
        List.sum_append, List.map_reverse, List.sum_reverse] at *
      omega
  rw [h2]
  exact layerNodes_nextLayer l

theorem bfs_flatten_countP (step : List PathPair → List PathPair) (q : PyTree → Bool)
    (hstep : ∀ l, (l.map (fun pr => treeCountP q pr.2)).sum =
      l.countP (fun pr => q pr.2) + ((step l).map (fun pr => treeCountP q pr.2)).sum)
    (hdec : ∀ l, layerNodes (step l) + l.length = layerNodes l) :
    ∀ (f : Nat) (l : List PathPair), layerNodes l < f →
      ((bfsLayers step f l).flatten).countP (fun pr => q pr.2) =
        (l.map (fun pr => treeCountP q pr.2)).sum := by
  intro f
  induction f with
  | zero => intro l h; omega
  | succ f ih =>
    intro l h
    cases hl : l.isEmpty
    · have hne : l ≠ [] := List.isEmpty_eq_false.mp hl
      have hlen : 1 ≤ l.length := List.length_pos.mpr hne
      have hd := hdec l
      simp only [bfsLayers, hl, Bool.false_eq_true, if_false, List.flatten_cons,
        List.countP_append]
      rw [ih (step l) (by omega), hstep l]
    · rw [List.isEmpty_iff.mp hl]
      simp [bfsLayers]

theorem dseq_countP (q : PyTree → Bool) (t : PyTree) :
    (dseq t).countP (fun pr => q pr.2) = treeCountP q t := by
  have h0 : layerNodes [rootPair t] = t.numNodes := by simp [layerNodes, rootPair]
  have h := bfs_flatten_countP nextLayer q (layer_count_step q) layerNodes_nextLayer
    (t.numNodes + 1) [rootPair t] (by omega)
  unfold dseq layersOf
  rw [List.countP_flatten, List.map_reverse, List.sum_reverse, ← List.countP_flatten]
  simpa [rootPair] using h

theorem layersRev_flatten_countP (q : PyTree → Bool) (t : PyTree) :
    ((layersRevOf t).flatten).countP (fun pr => q pr.2) = treeCountP q t := by
  have h0 : layerNodes [rootPair t] = t.numNodes := by simp [layerNodes, rootPair]
  have h := bfs_flatten_countP nextLayerRev q (layer_count_step_rev q) layerNodes_nextLayerRev
    (t.numNodes + 1) [rootPair t] (by omega)
  unfold layersRevOf
  simpa [rootPair] using h

theorem leafSeq_length (t : PyTree) : (leafSeq t).length = t.numLeaves := by
  unfold leafSeq leavesDisc
  rw [List.length_reverse, ← List.countP_eq_length_filter]
  exact layersRev_flatten_countP PyTree.isLeafB t

theorem dseq_length (t : PyTree) : (dseq t).length = t.numNodes := by
  have h := dseq_countP (fun _ => true) t
  simpa [List.countP_true] using h

theorem nextLayerRev_reverse (l : List PathPair) :
    nextLayerRev l.reverse = (nextLayer l).reverse := by
  unfold nextLayerRev nextLayer
  rw [List.flatMap_reverse]
  simp [Function.comp_def]

theorem bfsLayers_rev (f : Nat) :
    ∀ l : List PathPair,
      bfsLayers nextLayerRev f l.reverse = (bfsLayers nextLayer f l).map List.reverse := by
  induction f with
  | zero => intro l; rfl
  | succ f ih =>
    intro l
    cases hl : l.isEmpty
    · have hl2 : l.reverse.isEmpty = false := by
        simp only [List.isEmpty_eq_false] at *
        simpa using hl
      simp only [bfsLayers, hl, hl2, Bool.false_eq_true, if_false, List.map_cons]
      rw [nextLayerRev_reverse]
      exact congrArg _ (ih (nextLayer l))
    · rw [List.isEmpty_iff.mp hl]
      simp [bfsLayers]

theorem layersRevOf_eq (t : PyTree) : layersRevOf t = (layersOf t).map List.reverse := by
  unfold layersRevOf layersOf
  exact bfsLayers_rev (t.numNodes + 1) [rootPair t]

theorem filter_flatten_eq (p : PathPair → Bool) (L : List (List PathPair)) :
    (L.flatten).filter p = (L.map (List.filter p)).flatten := by
  induction L with
  | nil => rfl
  | cons a L ih => simp [List.filter_append, ih]

theorem map_reverse_flatten (L : List (List PathPair)) :
    (L.map List.reverse).flatten = (L.reverse.flatten).reverse := by
  induction L with
  | nil => rfl
  | cons a L ih =>
    simp [List.reverse_append, List.flatten_append, ih]

theorem flatten_layersRev_eq (t : PyTree) : (layersRevOf t).flatten = (dseq t).reverse := by
  rw [layersRevOf_eq]
  unfold dseq
  exact map_reverse_flatten (layersOf t)

theorem leafSeq_eq_filter_dseq (t : PyTree) :
    leafSeq t = (dseq t).filter (fun pr => pr.2.isLeafB) := by
  unfold leafSeq leavesDisc
  rw [flatten_layersRev_eq, List.filter_reverse, List.reverse_reverse]

theorem leavesDeepestFirst_eq (t : PyTree) :
    leavesDeepestFirst t = (dseq t).filter (fun pr => pr.2.isLeafB) := by
  unfold leavesDeepestFirst dseq
  rw [filter_flatten_eq]

theorem mem_childPairsFrom {pr : PathPair} (p : List Nat) :
    ∀ (j : Nat) (cs : List (Option PyTree)), pr ∈ childPairsFrom p j cs →
      ∃ j2, j ≤ j2 ∧ pr.1 = p ++ [j2] := by
  intro j cs
  induction cs generalizing j with
  | nil => intro h; simp [childPairsFrom] at h
  | cons c r ih =>
    cases c with
    | none =>
      intro h
      obtain ⟨j2, hj2, hp⟩ := ih (j + 1) h
      exact ⟨j2, by omega, hp⟩
    | some c0 =>
      intro h
      rw [childPairsFrom, List.mem_cons] at h
      cases h with
      | inl h => exact ⟨j, le_refl j, by rw [h]⟩
      | inr h =>
        obtain ⟨j2, hj2, hp⟩ := ih (j + 1) h
        exact ⟨j2, by omega, hp⟩

theorem mem_nextLayer {pr : PathPair} {l : List PathPair} (h : pr ∈ nextLayer l) :
    ∃ a ∈ l, pr ∈ childPairs a := by
  rw [nextLayer, List.mem_flatMap] at h
  exact h

theorem nextLayer_uniform {l : List PathPair} {d : Nat}
    (h : ∀ pr ∈ l, pr.1.length = d) : ∀ pr ∈ nextLayer l, pr.1.length = d + 1 := by
  intro pr hpr
  obtain ⟨a, ha, hca⟩ := mem_nextLayer hpr
  obtain ⟨j2, _, hp⟩ := mem_childPairsFrom a.1 0 a.2.children hca
  rw [hp, List.length_append, h a ha]
  rfl

theorem bfs_uniform (f : Nat) :
    ∀ (l : List PathPair) (d : Nat), (∀ pr ∈ l, pr.1.length = d) →
      ∀ (i : Nat) (L : List PathPair), (bfsLayers nextLayer f l)[i]? = some L →
        ∀ pr ∈ L, pr.1.length = d + i := by
  induction f with
  | zero => intro l d _ i L h; simp [bfsLayers] at h
  | succ f ih =>
    intro l d hu i L hL
    cases hl : l.isEmpty
    · simp only [bfsLayers, hl, Bool.false_eq_true, if_false] at hL
      cases i with
      | zero =>
        rw [List.getElem?_cons_zero] at hL
        cases hL
        simpa using hu
      | succ i2 =>
        rw [List.getElem?_cons_succ] at hL
        intro pr hpr
        have := ih (nextLayer l) (d + 1) (nextLayer_uniform hu) i2 L hL pr hpr
        omega
    · rw [List.isEmpty_iff.mp hl] at hL
      simp [bfsLayers] at hL

theorem layersOf_uniform (t : PyTree) :
    ∀ (i : Nat) (L : List PathPair), (layersOf t)[i]? = some L →
      ∀ pr ∈ L, pr.1.length = i := by
  intro i L hL pr hpr
  have := bfs_uniform (t.numNodes + 1) [rootPair t] 0 (by simp [rootPair]) i L hL pr hpr
  omega

theorem childPairsFrom_fst_nodup (p : List Nat) :
    ∀ (j : Nat) (cs : List (Option PyTree)), ((childPairsFrom p j cs).map Prod.fst).Nodup := by
  intro j cs
  induction cs generalizing j with
  | nil => simp [childPairsFrom]
  | cons c r ih =>
    cases c with
    | none => exact ih (j + 1)
    | some c0 =>
      rw [childPairsFrom, List.map_cons, List.nodup_cons]
      refine ⟨?_, ih (j + 1)⟩
      intro hmem
      obtain ⟨pr, hpr, hfst⟩ := List.mem_map.mp hmem
      obtain ⟨j2, hj2, hp⟩ := mem_childPairsFrom p (j + 1) r hpr
      rw [hp] at hfst
      have : j2 = j := by
        have := List.append_cancel_left hfst
        simpa using this
      omega

theorem nextLayer_fst_nodup {l : List PathPair} {d : Nat}
    (hu : ∀ pr ∈ l, pr.1.length = d) (hn : (l.map Prod.fst).Nodup) :
    ((nextLayer l).map Prod.fst).Nodup := by
  unfold nextLayer
  rw [List.map_flatMap, List.flatMap_def, List.nodup_flatten]
  constructor
  · intro L hL
    obtain ⟨a, _, rfl⟩ := List.mem_map.mp hL
    exact childPairsFrom_fst_nodup a.1 0 a.2.children
  · rw [List.pairwise_map]
    have hp : List.Pairwise (fun a b : PathPair => a.1 ≠ b.1) l := List.pairwise_map.mp hn
    refine hp.imp_of_mem ?_
    intro a b ha hb hab
    intro q hqa hqb
    obtain ⟨pra, hpra, hfa⟩ := List.mem_map.mp hqa
    obtain ⟨prb, hprb, hfb⟩ := List.mem_map.mp hqb
    obtain ⟨j2, _, hp2⟩ := mem_childPairsFrom a.1 0 a.2.children hpra
    obtain ⟨j3, _, hp3⟩ := mem_childPairsFrom b.1 0 b.2.children hprb
    have heq : a.1 ++ [j2] = b.1 ++ [j3] := by rw [← hp2, ← hp3, hfa, hfb]
    have hlen : a.1.length = b.1.length := by rw [hu a ha, hu b hb]
    exact hab (List.append_inj_left heq hlen)

theorem bfs_fst_nodup (f : Nat) :
    ∀ (l : List PathPair) (d : Nat), (∀ pr ∈ l, pr.1.length = d) → (l.map Prod.fst).Nodup →
      ∀ (i : Nat) (L : List PathPair), (bfsLayers nextLayer f l)[i]? = some L →
        (L.map Prod.fst).Nodup := by
  induction f with
  | zero => intro l d _ _ i L h; simp [bfsLayers] at h
  | succ f ih =>
    intro l d hu hn i L hL
    cases hl : l.isEmpty
    · simp only [bfsLayers, hl, Bool.false_eq_true, if_false] at hL
      cases i with
      | zero =>
        rw [List.getElem?_cons_zero] at hL
        cases hL
        exact hn
      | succ i2 =>
        rw [List.getElem?_cons_succ] at hL
        exact ih (nextLayer l) (d + 1) (nextLayer_uniform hu) (nextLayer_fst_nodup hu hn) i2 L hL
    · rw [List.isEmpty_iff.mp hl] at hL
      simp [bfsLayers] at hL

theorem layersOf_fst_nodup (t : PyTree) :
    ∀ (i : Nat) (L : List PathPair), (layersOf t)[i]? = some L → (L.map Prod.fst).Nodup :=
  bfs_fst_nodup (t.numNodes + 1) [rootPair t] 0 (by simp [rootPair]) (by simp)

theorem mem_dseq_iff {t : PyTree} {pr : PathPair} :
    pr ∈ dseq t ↔ ∃ (i : Nat) (L : List PathPair), (layersOf t)[i]? = some L ∧ pr ∈ L := by
  unfold dseq
  rw [List.mem_flatten]
  constructor
  · rintro ⟨L, hL, hpr⟩
    rw [List.mem_reverse] at hL
    obtain ⟨i, hi, hget⟩ := List.mem_iff_getElem.mp hL
    exact ⟨i, L, by rw [List.getElem?_eq_getElem hi, hget], hpr⟩
  · rintro ⟨i, L, hL, hpr⟩
    refine ⟨L, ?_, hpr⟩
    rw [List.mem_reverse]
    obtain ⟨hi, hget⟩ := List.getElem?_eq_some.mp hL
    exact hget ▸ List.getElem_mem hi

theorem dseq_fst_nodup (t : PyTree) : ((dseq t).map Prod.fst).Nodup := by
  unfold dseq
  rw [List.map_flatten, List.nodup_flatten]
  constructor
  · intro L hL
    obtain ⟨L0, hL0, rfl⟩ := List.mem_map.mp hL
    rw [List.mem_reverse] at hL0
    obtain ⟨i, hi, hget⟩ := List.mem_iff_getElem.mp hL0
    exact layersOf_fst_nodup t i L0 (by rw [List.getElem?_eq_getElem hi, hget])
  · rw [List.pairwise_map, List.pairwise_reverse]
    rw [List.pairwise_iff_getElem]
    intro i j hi hj hij
    intro q hqj hqi
    obtain ⟨prj, hprj, hfj⟩ := List.mem_map.mp hqj
    obtain ⟨pri, hpri, hfi⟩ := List.mem_map.mp hqi
    have hlenj : prj.1.length = j :=
      layersOf_uniform t j _ (List.getElem?_eq_getElem hj) prj hprj
    have hleni : pri.1.length = i :=
      layersOf_uniform t i _ (List.getElem?_eq_getElem hi) pri hpri
    have heq2 : pri.1 = prj.1 := by rw [hfi, hfj]
    have : i = j := by rw [← hleni, ← hlenj, heq2]
    omega

theorem path_unique {t : PyTree} {a b : PathPair} (ha : a ∈ dseq t) (hb : b ∈ dseq t)
    (heq : a.1 = b.1) : a = b := by
  obtain ⟨i, hi, hia⟩ := List.mem_iff_getElem.mp ha
  obtain ⟨j, hj, hjb⟩ := List.mem_iff_getElem.mp hb
  have hi2 : i < ((dseq t).map Prod.fst).length := by simpa using hi
  have hj2 : j < ((dseq t).map Prod.fst).length := by simpa using hj
  have hmap : ((dseq t).map Prod.fst)[i] = ((dseq t).map Prod.fst)[j] := by
    rw [List.getElem_map, List.getElem_map, hia, hjb]
    exact heq
  have hij : i = j := ((dseq_fst_nodup t).getElem_inj_iff).mp hmap
  subst hij
  rw [← hia, ← hjb]

theorem mem_dseq_of_mem_layersRev {t : PyTree} {pr : PathPair}
    (h : pr ∈ (layersRevOf t).flatten) : pr ∈ dseq t := by
  rw [flatten_layersRev_eq, List.mem_reverse] at h
  exact h

theorem leafSeq_sub_dseq {t : PyTree} {pr : PathPair} (h : pr ∈ leafSeq t) :
    pr ∈ dseq t ∧ pr.2.isLeafB = true := by
  rw [leafSeq_eq_filter_dseq] at h
  exact List.mem_filter.mp h

theorem leafIdx_iff {t : PyTree} {pr : PathPair} (hpr : pr ∈ dseq t) :
    (leafIdxOf t pr.1).isNone = !pr.2.isLeafB := by
  cases hleaf : pr.2.isLeafB
  · have hnone : leafIdxOf t pr.1 = none := by
      rw [leafIdxOf, List.findIdx?_eq_none_iff]
      intro x hx
      obtain ⟨hxd, hxl⟩ := leafSeq_sub_dseq hx
      by_contra hcon
      have hxp : x.1 = pr.1 := by simpa using hcon
      have : x = pr := path_unique hxd hpr hxp
      rw [this] at hxl
      rw [hxl] at hleaf
      exact absurd hleaf (by simp)
    rw [hnone]
    rfl
  · have hmem : pr ∈ leafSeq t := by
      rw [leafSeq_eq_filter_dseq]
      exact List.mem_filter.mpr ⟨hpr, hleaf⟩
    have hsome : (leafIdxOf t pr.1).isSome = true := by
      rw [leafIdxOf, List.findIdx?_isSome, List.any_eq_true]
      exact ⟨pr, hmem, by simp⟩
    cases h2 : leafIdxOf t pr.1
    · rw [h2] at hsome; exact absurd hsome (by simp)
    · rfl

theorem findIdx?_some_spec {α : Type} (p : α → Bool) :
    ∀ (l : List α) (i k : Nat), List.findIdx? p l i = some k →
      i ≤ k ∧ ∃ a, l[k - i]? = some a ∧ p a = true := by
  intro l
  induction l with
  | nil => intro i k h; simp [List.findIdx?] at h
  | cons x xs ih =>
    intro i k h
    rw [List.findIdx?_cons] at h
    cases hx : p x
    · rw [hx] at h
      simp only [Bool.false_eq_true, if_false] at h
      obtain ⟨h1, a, h2, h3⟩ := ih (i + 1) k h
      refine ⟨by omega, a, ?_, h3⟩
      rw [show k - i = (k - (i + 1)) + 1 by omega, List.getElem?_cons_succ]
      exact h2
    · rw [hx] at h
      simp only [if_true] at h
      cases h
      exact ⟨le_refl i, x, by simp, hx⟩

theorem findIdx?_eq_some_of {α : Type} (p : α → Bool) :
    ∀ (l : List α) (i k : Nat) (a : α),
      (∀ j b, j < k → l[j]? = some b → p b = false) → l[k]? = some a → p a = true →
      List.findIdx? p l i = some (i + k) := by
  intro l
  induction l with
  | nil => intro i k a _ h2 _; simp at h2
  | cons x xs ih =>
    intro i k a h1 h2 h3
    rw [List.findIdx?_cons]
    cases k with
    | zero =>
      rw [List.getElem?_cons_zero] at h2
      cases h2
      rw [h3]
      rfl
    | succ k2 =>
      have hx : p x = false := h1 0 x (by omega) (by rw [List.getElem?_cons_zero])
      rw [hx]
      simp only [Bool.false_eq_true, if_false]
      have := ih (i + 1) k2 a
        (fun j b hj hb => h1 (j + 1) b (by omega) (by rwa [List.getElem?_cons_succ]))
        (by rwa [List.getElem?_cons_succ] at h2) h3
      rw [this]
      exact congrArg some (by omega)

theorem leafSeq_fst_nodup (t : PyTree) : ((leafSeq t).map Prod.fst).Nodup := by
  rw [leafSeq_eq_filter_dseq]
  exact List.Pairwise.sublist (List.Sublist.map _ (List.filter_sublist _)) (dseq_fst_nodup t)

/-- C7: the leaf value sequence lists the leaves deepest layer first and
left to right within each layer (the filtered reversed BFS layers), and the
position assigned to the `i`-th leaf of that sequence is exactly `i`
(ascending from 0). -/
theorem claim_C7_leaf_order (t : PyTree) :
    leafSeq t = leavesDeepestFirst t ∧
    ∀ (i : Nat) (h : i < (leafSeq t).length),
      leafIdxOf t ((leafSeq t).get ⟨i, h⟩).1 = some i := by
  refine ⟨by rw [leafSeq_eq_filter_dseq, leavesDeepestFirst_eq], ?_⟩
  intro i h
  have hres := findIdx?_eq_some_of (fun pr => decide (pr.1 = ((leafSeq t).get ⟨i, h⟩).1))
    (leafSeq t) 0 i ((leafSeq t).get ⟨i, h⟩) ?_ ?_ ?_
  · simpa [leafIdxOf] using hres
  · intro j b hj hb
    obtain ⟨hjlt, hbeq⟩ := List.getElem?_eq_some.mp hb
    by_contra hcon
    have hbp : b.1 = ((leafSeq t).get ⟨i, h⟩).1 := by simpa using hcon
    have hj2 : j < ((leafSeq t).map Prod.fst).length := by simpa using hjlt
    have hi2 : i < ((leafSeq t).map Prod.fst).length := by simpa using h
    have hmapj : ((leafSeq t).map Prod.fst)[j] = ((leafSeq t).map Prod.fst)[i] := by
      rw [List.getElem_map, List.getElem_map, hbeq, hbp, List.get_eq_getElem]
    have : j = i := ((leafSeq_fst_nodup t).getElem_inj_iff).mp hmapj
    omega
  · rw [List.getElem?_eq_getElem h, List.get_eq_getElem]
  · simp

theorem internalSeq_length (t : PyTree) :
    (internalSeq t).length = t.numNodes - t.numLeaves := by
  unfold internalSeq
  rw [← List.countP_eq_length_filter]
  have hcong : (dseq t).countP (fun pr => (leafIdxOf t pr.1).isNone) =
      (dseq t).countP (fun pr => !pr.2.isLeafB) :=
    List.countP_congr (fun pr hpr => by rw [leafIdx_iff hpr])
  rw [hcong]
  have h4 : (dseq t).length = (dseq t).countP (fun pr : PathPair => pr.2.isLeafB) +
      (dseq t).countP (fun pr => !pr.2.isLeafB) := by
    rw [List.length_eq_countP_add_countP (fun pr : PathPair => pr.2.isLeafB)]
    congr 1
    exact List.countP_congr (fun x _ => by simp)
  have h6 : (dseq t).countP (fun pr : PathPair => pr.2.isLeafB) = treeCountP PyTree.isLeafB t :=
    dseq_countP PyTree.isLeafB t
  have h7 := dseq_length t
  have hL : t.numLeaves = treeCountP PyTree.isLeafB t := rfl
  omega

theorem treeSched_length (t : PyTree) (md : Option Nat) :
    (treeSched t md).length = t.numNodes - t.numLeaves := by
  unfold treeSched
  cases hc : t.children.isEmpty
  · simp only [hc, Bool.false_eq_true, if_false, List.length_map, List.enum_length]
    exact internalSeq_length t
  · obtain ⟨v, cs⟩ := t
    have hcs : cs = [] := by simpa [PyTree.children, List.isEmpty_iff] using hc
    subst hcs
    rfl

theorem treeSched_own_posns (t : PyTree) (md : Option Nat) :
    (treeSched t md).map (fun r => r.getLastD (-1)) =
      (List.range (t.numNodes - t.numLeaves)).map
        (fun i : Nat => ((leafSeq t).length : Int) + (i : Int)) := by
  rw [← internalSeq_length]
  unfold treeSched
  cases hc : t.children.isEmpty
  · simp only [hc, Bool.false_eq_true, if_false, List.map_map]
    have hfun : ((fun r => r.getLastD (-1)) ∘ fun ik : Nat × PathPair =>
        schedRow t md ik.1 ik.2) =
        (fun i : Nat => ((leafSeq t).length : Int) + (i : Int)) ∘ Prod.fst := by
      funext ik
      show (schedRow t md ik.1 ik.2).getLastD (-1) = _
      unfold schedRow
      rw [List.getLastD_concat]
      rfl
    rw [hfun, ← List.map_map, List.enum_map_fst]
  · obtain ⟨v, cs⟩ := t
    have hcs : cs = [] := by simpa [PyTree.children, List.isEmpty_iff] using hc
    subst hcs
    have hz : (internalSeq (PyTree.node v [])).length = 0 := by
      rw [internalSeq_length]
      rfl
    rw [hz]
    rfl

theorem genNNInputs_some {t : PyTree} {md : Option Nat} {ol : Bool} {x : List Int}
    {tr : List (List Int)} (h : genNNInputs t md ol = some (x, tr)) :
    tr = treeSched t md := by
  cases md with
  | some d =>
    simp only [genNNInputs] at h
    by_cases h1 : ((leafVals t).all fun v => v.isSome) = true
    · rw [if_pos h1] at h
      by_cases h2 : ((treeSched t (some d)).all fun r => r.length == d + 1) = true
      · rw [if_pos h2] at h
        cases h
        rfl
      · rw [if_neg h2] at h
        cases h
    · rw [if_neg h1] at h
      cases h
  | none =>
    simp only [genNNInputs] at h
    by_cases h1 : ((leafVals t).all fun v => v.isSome) = true
    · rw [if_pos h1] at h
      cases h
      rfl
    · rw [if_neg h1] at h
      cases h

theorem numLeaves_le_numNodes (t : PyTree) : t.numLeaves ≤ t.numNodes := by
  have h6 : (dseq t).countP (fun pr : PathPair => pr.2.isLeafB) = treeCountP PyTree.isLeafB t :=
    dseq_countP PyTree.isLeafB t
  have h7 := dseq_length t
  have h8 := List.countP_le_length (p := fun pr : PathPair => pr.2.isLeafB) (l := dseq t)
  have hL : t.numLeaves = treeCountP PyTree.isLeafB t := rfl
  omega

/-- C5: whenever `gen_nn_inputs` succeeds on a tree with `N` nodes of which
`L` are leaves, the returned schedule has exactly `N − L` rows, and the `L`
leaf positions (`0..L−1`) followed by the rows' own positions enumerate the
positions `0..N−1` exactly once, in order. -/
theorem claim_C5_schedule_counts (t : PyTree) (md : Option Nat) (ol : Bool)
    (x : List Int) (tr : List (List Int)) (h : genNNInputs t md ol = some (x, tr)) :
    tr.length = t.numNodes - t.numLeaves ∧
    (List.range t.numLeaves).map (fun n : Nat => (n : Int)) ++
        tr.map (fun r => r.getLastD (-1)) =
      (List.range t.numNodes).map (fun n : Nat => (n : Int)) := by
  obtain rfl : tr = treeSched t md := genNNInputs_some h
  refine ⟨treeSched_length t md, ?_⟩
  rw [treeSched_own_posns, leafSeq_length]
  have hLN := numLeaves_le_numNodes t
  have hsplit : List.range t.numNodes =
      List.range t.numLeaves ++
        (List.range (t.numNodes - t.numLeaves)).map (fun i => t.numLeaves + i) := by
    have hr := List.range_add t.numLeaves (t.numNodes - t.numLeaves)
    rw [show t.numLeaves + (t.numNodes - t.numLeaves) = t.numNodes from by omega] at hr
    exact hr
  rw [hsplit, List.map_append, List.map_map]
  congr 1

/-- C5 witness: the four-node tree `exTree2` with two leaves. -/
theorem claim_C5_witness :
    ([[0, -1, 2], [2, 1, 3]] : List (List Int)).length =
        exTree2.numNodes - exTree2.numLeaves ∧
    (List.range exTree2.numLeaves).map (fun n : Nat => (n : Int)) ++
        ([[0, -1, 2], [2, 1, 3]] : List (List Int)).map (fun r => r.getLastD (-1)) =
      (List.range exTree2.numNodes).map (fun n : Nat => (n : Int)) :=
  claim_C5_schedule_counts exTree2 (some 2) true [4, 5] [[0, -1, 2], [2, 1, 3]] (by decide)

theorem leafVals_all_false_of_valueless {t : PyTree} (h : hasValuelessLeaf t) :
    ((leafVals t).all fun v => v.isSome) = false := by
  unfold hasValuelessLeaf at h
  rw [← layersRev_flatten_countP (fun n => n.isLeafB && n.val.isNone) t] at h
  obtain ⟨pr, hpr, hq⟩ := List.countP_pos_iff.mp h
  obtain ⟨hleaf, hnone⟩ : pr.2.isLeafB = true ∧ pr.2.val.isNone = true := by
    simpa using hq
  have hmem : pr ∈ leafSeq t := by
    unfold leafSeq leavesDisc
    rw [List.mem_reverse]
    exact List.mem_filter.mpr ⟨hpr, hleaf⟩
  rw [List.all_eq_false]
  refine ⟨pr.2.val, List.mem_map.mpr ⟨pr, hmem, rfl⟩, ?_⟩
  cases hv : pr.2.val
  · simp
  · rw [hv] at hnone
    exact absurd hnone (by simp)

theorem genNNInputs_none_of_valueless {t : PyTree} (md : Option Nat) (ol : Bool)
    (h : hasValuelessLeaf t) : genNNInputs t md ol = none := by
  have hall := leafVals_all_false_of_valueless h
  simp only [genNNInputs, hall]
  rfl

theorem childSlotsFrom_length (t : PyTree) (p : List Nat) :
    ∀ (j : Nat) (cs : List (Option PyTree)), (childSlotsFrom t p j cs).length = cs.length := by
  intro j cs
  induction cs generalizing j with
  | nil => rfl
  | cons c r ih =>
    cases c with
    | none => simpa [childSlotsFrom] using ih (j + 1)
    | some c0 => simpa [childSlotsFrom] using ih (j + 1)

theorem isLeafB_false_of_arity {n : PyTree} {d : Nat}
    (h : d < (n.children.filterMap id).length) : n.isLeafB = false := by
  have hne : n.children.filterMap id ≠ [] := by
    intro hnil
    rw [hnil] at h
    simp at h
  obtain ⟨c, hc⟩ := List.exists_mem_of_ne_nil _ hne
  obtain ⟨x, hx, hxc⟩ := List.mem_filterMap.mp hc
  unfold PyTree.isLeafB
  rw [List.all_eq_false]
  refine ⟨x, hx, ?_⟩
  cases x
  · simp at hxc
  · simp

theorem genNNInputs_none_of_arity {t : PyTree} (d : Nat) (ol : Bool)
    (h : hasArityOver d t) : genNNInputs t (some d) ol = none := by
  unfold hasArityOver at h
  rw [← dseq_countP (fun n => decide (d < (n.children.filterMap id).length)) t] at h
  obtain ⟨pr, hpr, hq⟩ := List.countP_pos_iff.mp h
  have harity : d < (pr.2.children.filterMap id).length := of_decide_eq_true hq
  have hleaf : pr.2.isLeafB = false := isLeafB_false_of_arity harity
  have hint : pr ∈ internalSeq t := by
    unfold internalSeq
    refine List.mem_filter.mpr ⟨hpr, ?_⟩
    rw [leafIdx_iff hpr, hleaf]
    rfl
  have hcne : t.children.isEmpty = false := by
    cases hc : t.children.isEmpty
    · rfl
    · exfalso
      obtain ⟨v, cs⟩ := t
      have hcs : cs = [] := by simpa [PyTree.children, List.isEmpty_iff] using hc
      subst hcs
      have hz : (internalSeq (PyTree.node v [])).length = 0 := by
        rw [internalSeq_length]
        rfl
      rw [List.eq_nil_of_length_eq_zero hz] at hint
      exact absurd hint (List.not_mem_nil _)
  obtain ⟨i, hi, hgi⟩ := List.mem_iff_getElem.mp hint
  have hrow : schedRow t (some d) i pr ∈ treeSched t (some d) := by
    unfold treeSched
    rw [hcne]
    simp only [Bool.false_eq_true, if_false]
    refine List.mem_map.mpr ⟨(i, pr), ?_, rfl⟩
    have hi2 : i < (internalSeq t).enum.length := by simpa using hi
    have he : (internalSeq t).enum[i] = (i, pr) := by
      rw [List.getElem_enum, hgi]
    rw [← he]
    exact List.getElem_mem hi2
  have hlen : (schedRow t (some d) i pr).length ≠ d + 1 := by
    unfold schedRow padSlots
    have h1 : (childSlotsFrom t pr.1 0 pr.2.children).length = pr.2.children.length :=
      childSlotsFrom_length t pr.1 0 pr.2.children
    have h2 : (pr.2.children.filterMap id).length ≤ pr.2.children.length :=
      List.length_filterMap_le id pr.2.children
    simp only [List.length_append, List.length_replicate, List.length_cons, List.length_nil, h1]
    omega
  have hall : ((treeSched t (some d)).all fun r => r.length == d + 1) = false := by
    rw [List.all_eq_false]
    refine ⟨schedRow t (some d) i pr, hrow, ?_⟩
    simpa using hlen
  by_cases h1 : ((leafVals t).all fun v => v.isSome) = true
  · simp only [genNNInputs, h1, if_true, hall]
    rfl
  · have h1f : ((leafVals t).all fun v => v.isSome) = false := by
      cases hx : (leafVals t).all fun v => v.isSome
      · rfl
      · exact absurd hx h1
    simp only [genNNInputs, h1f]
    rfl

/-- C10 counterexample: the claim says that with `only_leaves_have_vals`
false, any tree containing an internal node with an absent value makes
`gen_nn_inputs` fail; but on `exTree` (whose root carries no value) it
succeeds. -/
theorem claim_C10_cex : genNNInputs exTree (some 2) false ≠ none := by decide

/-- C10 (amended): `gen_nn_inputs` fails on every tree containing a leaf
with an absent value, and fails whenever a maximum arity `D` is supplied
and some node has more than `D` present children; but with
`only_leaves_have_vals = False` an internal node with an absent value does
not cause a failure — its value is encoded as `-1` in the appended value
sequence (concretely on `exTree`, whose root value is absent). -/
theorem claim_C10_failure_modes :
    (∀ (t : PyTree) (md : Option Nat) (ol : Bool), hasValuelessLeaf t →
      genNNInputs t md ol = none) ∧
    (∀ (t : PyTree) (d : Nat) (ol : Bool), hasArityOver d t →
      genNNInputs t (some d) ol = none) ∧
    genNNInputs exTree (some 2) false = some ([3, 7, -1], [[0, 1, 2]]) :=
  ⟨fun _ md ol h => genNNInputs_none_of_valueless md ol h,
   fun _ d ol h => genNNInputs_none_of_arity d ol h,
   by decide⟩

/-- C10 witness: a valueless single leaf fails, and a 2-child root with
`max_degree = 1` fails. -/
theorem claim_C10_witness :
    genNNInputs badLeafTree none true = none ∧ genNNInputs arityTree (some 1) true = none :=
  ⟨claim_C10_failure_modes.1 badLeafTree none true (by unfold hasValuelessLeaf; decide),
   claim_C10_failure_modes.2.1 arityTree 1 true (by unfold hasArityOver; decide)⟩

theorem enum_mem_getElem {α : Type} {l : List α} {i : Nat} {a : α} (h : (i, a) ∈ l.enum) :
    l[i]? = some a := by
  obtain ⟨k, hk, hg⟩ := List.mem_iff_getElem.mp h
  have hk2 : k < l.length := by simpa using hk
  rw [List.getElem_enum] at hg
  have h1 : k = i := congrArg Prod.fst hg
  have h2 : l[k] = a := congrArg Prod.snd hg
  subst h1
  rw [List.getElem?_eq_getElem hk2, h2]

theorem mem_childSlotsFrom {t : PyTree} {e : Int} (p : List Nat) :
    ∀ (j : Nat) (cs : List (Option PyTree)), e ∈ childSlotsFrom t p j cs →
      e = -1 ∨ ∃ j2, e = idxVal t (p ++ [j2]) := by
  intro j cs
  induction cs generalizing j with
  | nil => intro h; simp [childSlotsFrom] at h
  | cons c r ih =>
    cases c with
    | none =>
      intro h
      rcases List.mem_cons.mp h with h1 | h1
      · exact Or.inl h1
      · exact ih (j + 1) h1
    | some c0 =>
      intro h
      rcases List.mem_cons.mp h with h1 | h1
      · exact Or.inr ⟨j, h1⟩
      · exact ih (j + 1) h1

theorem dseq_pairwise_len (t : PyTree) :
    List.Pairwise (fun a b : PathPair => b.1.length ≤ a.1.length) (dseq t) := by
  unfold dseq
  rw [List.pairwise_flatten]
  constructor
  · intro L hL
    rw [List.mem_reverse] at hL
    obtain ⟨i, hi, hget⟩ := List.mem_iff_getElem.mp hL
    rw [List.pairwise_iff_getElem]
    intro a b ha hb hab
    have h1 : L[a].1.length = i := by
      refine layersOf_uniform t i L ?_ L[a] (List.getElem_mem ha)
      rw [List.getElem?_eq_getElem hi, hget]
    have h2 : L[b].1.length = i := by
      refine layersOf_uniform t i L ?_ L[b] (List.getElem_mem hb)
      rw [List.getElem?_eq_getElem hi, hget]
    omega
  · rw [List.pairwise_reverse, List.pairwise_iff_getElem]
    intro i j hi hj hij x hx y hy
    have h1 : x.1.length = j :=
      layersOf_uniform t j _ (List.getElem?_eq_getElem hj) x hx
    have h2 : y.1.length = i :=
      layersOf_uniform t i _ (List.getElem?_eq_getElem hi) y hy
    omega

theorem internalSeq_pairwise_len (t : PyTree) :
    List.Pairwise (fun a b : PathPair => b.1.length ≤ a.1.length) (internalSeq t) :=
  List.Pairwise.sublist (List.filter_sublist _) (dseq_pairwise_len t)

theorem idxVal_eq_leaf {t : PyTree} {q : List Nat} {k : Nat} (h : leafIdxOf t q = some k) :
    idxVal t q = (k : Int) := by
  unfold idxVal
  rw [h]

theorem idxVal_eq_internal {t : PyTree} {q : List Nat} {k : Nat}
    (h1 : leafIdxOf t q = none) (h2 : internalIdxOf t q = some k) :
    idxVal t q = ((leafSeq t).length + k : Int) := by
  unfold idxVal
  rw [h1, h2]

theorem idxVal_eq_neg {t : PyTree} {q : List Nat}
    (h1 : leafIdxOf t q = none) (h2 : internalIdxOf t q = none) : idxVal t q = -1 := by
  unfold idxVal
  rw [h1, h2]

theorem idxVal_bound {t : PyTree} {q : List Nat} {i : Nat}
    (hne : idxVal t q ≠ -1)
    (hint : ∀ k, internalIdxOf t q = some k → k < i) :
    idxVal t q < ((leafSeq t).length : Int) + (i : Int) := by
  cases hl : leafIdxOf t q with
  | some k =>
    rw [idxVal_eq_leaf hl]
    have hl2 : List.findIdx? (fun pr => decide (pr.1 = q)) (leafSeq t) = some k := hl
    obtain ⟨-, a, ha, -⟩ := findIdx?_some_spec _ _ 0 k hl2
    simp only [Nat.sub_zero] at ha
    have hk : k < (leafSeq t).length := (List.getElem?_eq_some.mp ha).1
    omega
  | none =>
    cases hi2 : internalIdxOf t q with
    | some k =>
      rw [idxVal_eq_internal hl hi2]
      have := hint k hi2
      omega
    | none => exact absurd (idxVal_eq_neg hl hi2) hne

theorem schedRow_child_lt {t : PyTree} {md : Option Nat} {i : Nat} {pr : PathPair}
    (hi : i < (internalSeq t).length) (hgi : (internalSeq t)[i] = pr)
    {e : Int} (he : e ∈ (schedRow t md i pr).dropLast) (hne : e ≠ -1) :
    e < (schedRow t md i pr).getLastD 0 := by
  unfold schedRow at he ⊢
  rw [List.dropLast_concat] at he
  rw [List.getLastD_concat]
  have he2 : e ∈ childSlotsFrom t pr.1 0 pr.2.children := by
    cases md with
    | none => exact he
    | some d =>
      unfold padSlots at he
      rcases List.mem_append.mp he with h1 | h1
      · exact h1
      · exact absurd (List.eq_of_mem_replicate h1) hne
  rcases mem_childSlotsFrom pr.1 0 _ he2 with rfl | ⟨j2, rfl⟩
  · exact absurd rfl hne
  · refine idxVal_bound hne ?_
    intro k hk
    have hk2 : List.findIdx? (fun b => decide (b.1 = pr.1 ++ [j2])) (internalSeq t) = some k := hk
    obtain ⟨-, b, hb, hbp⟩ := findIdx?_some_spec _ _ 0 k hk2
    simp only [Nat.sub_zero] at hb
    obtain ⟨hklen, hbk⟩ := List.getElem?_eq_some.mp hb
    have hbpath : b.1 = pr.1 ++ [j2] := of_decide_eq_true hbp
    have hblen : b.1.length = pr.1.length + 1 := by rw [hbpath]; simp
    by_contra hcon
    have hik : i ≤ k := by omega
    rcases Nat.eq_or_lt_of_le hik with heq | hlt
    · subst heq
      rw [hgi] at hbk
      rw [← hbk] at hbpath
      have : pr.1.length = pr.1.length + 1 := by
        conv_lhs => rw [hbpath]
        simp
      omega
    · have hp := List.pairwise_iff_getElem.mp (internalSeq_pairwise_len t) i k hi hklen hlt
      rw [hbk, hgi] at hp
      omega

theorem bfsLayers_nil (step : List PathPair → List PathPair) (f : Nat) :
    bfsLayers step f [] = [] := by
  cases f <;> rfl

theorem childPairsFrom_nil_of_all_none (p : List Nat) :
    ∀ (j : Nat) (cs : List (Option PyTree)), cs.all Option.isNone = true →
      childPairsFrom p j cs = [] := by
  intro j cs
  induction cs generalizing j with
  | nil => intro _; rfl
  | cons c r ih =>
    cases c with
    | none =>
      intro h
      exact ih (j + 1) (by simpa using h)
    | some c0 =>
      intro h
      simp at h

theorem layersOf_cons (t : PyTree) :
    layersOf t = [rootPair t] :: bfsLayers nextLayer t.numNodes (nextLayer [rootPair t]) := rfl

theorem dseq_root_split (t : PyTree) :
    dseq t = ((bfsLayers nextLayer t.numNodes (nextLayer [rootPair t])).reverse).flatten ++
      [rootPair t] := by
  unfold dseq
  rw [layersOf_cons]
  simp [List.flatten_append]

theorem internalSeq_root_split (t : PyTree) (hroot : t.isLeafB = false) :
    internalSeq t =
      (((bfsLayers nextLayer t.numNodes (nextLayer [rootPair t])).reverse).flatten).filter
          (fun pr => (leafIdxOf t pr.1).isNone) ++ [rootPair t] := by
  have hrootmem : rootPair t ∈ dseq t := by
    rw [dseq_root_split]
    exact List.mem_append.mpr (Or.inr (List.mem_singleton.mpr rfl))
  have hrootpred : (leafIdxOf t (rootPair t).1).isNone = true := by
    rw [leafIdx_iff hrootmem]
    show (!(t.isLeafB)) = true
    rw [hroot]
    rfl
  unfold internalSeq
  rw [dseq_root_split, List.filter_append]
  congr 1
  simp [hrootpred]

theorem internalSeq_empty_of_leaf_root (t : PyTree) (hroot : t.isLeafB = true) :
    internalSeq t = [] := by
  have hnl : nextLayer [rootPair t] = [] := by
    unfold nextLayer childPairs
    simp only [List.flatMap_cons, List.flatMap_nil, List.append_nil]
    exact childPairsFrom_nil_of_all_none _ 0 _ hroot
  have hd : dseq t = [rootPair t] := by
    rw [dseq_root_split, hnl, bfsLayers_nil]
    rfl
  have hrootmem : rootPair t ∈ dseq t := by
    rw [hd]
    exact List.mem_singleton.mpr rfl
  have hrootpred : (leafIdxOf t (rootPair t).1).isNone = false := by
    rw [leafIdx_iff hrootmem]
    show (!(t.isLeafB)) = false
    rw [hroot]
    rfl
  unfold internalSeq
  rw [hd]
  simp [hrootpred]

theorem internalIdxOf_root (t : PyTree) (hroot : t.isLeafB = false) :
    internalIdxOf t [] = some ((internalSeq t).length - 1) := by
  have hsplit := internalSeq_root_split t hroot
  set X := (((bfsLayers nextLayer t.numNodes (nextLayer [rootPair t])).reverse).flatten).filter
    (fun pr => (leafIdxOf t pr.1).isNone) with hX
  have hnodup := dseq_fst_nodup t
  rw [dseq_root_split, List.map_append] at hnodup
  have hdisj := (List.nodup_append.mp hnodup).2.2
  have hXne : ∀ b ∈ X, b.1 ≠ [] := by
    intro b hb hbnil
    have hbX : b ∈ ((bfsLayers nextLayer t.numNodes (nextLayer [rootPair t])).reverse).flatten :=
      List.mem_of_mem_filter hb
    refine hdisj (a := ([] : List Nat)) ?_ ?_
    · exact List.mem_map.mpr ⟨b, hbX, hbnil⟩
    · simp [rootPair]
  have hlen : (internalSeq t).length = X.length + 1 := by
    rw [hsplit]
    simp
  unfold internalIdxOf
  rw [hsplit]
  have hfind := findIdx?_eq_some_of (fun pr : PathPair => decide (pr.1 = []))
    (X ++ [rootPair t]) 0 X.length (rootPair t) ?_ ?_ ?_
  · rw [hfind]
    simp
  · intro j b hj hb
    rw [List.getElem?_append, if_pos hj] at hb
    obtain ⟨hjl, hbj⟩ := List.getElem?_eq_some.mp hb
    have hbmem : b ∈ X := hbj ▸ List.getElem_mem hjl
    simpa using hXne b hbmem
  · rw [List.getElem?_append_right (le_refl X.length)]
    simp
  · simp [rootPair]

theorem leafIdxOf_root_none (t : PyTree) (hroot : t.isLeafB = false) :
    leafIdxOf t [] = none := by
  have hrootmem : rootPair t ∈ dseq t := by
    rw [dseq_root_split]
    exact List.mem_append.mpr (Or.inr (List.mem_singleton.mpr rfl))
  have h := leafIdx_iff hrootmem
  rw [show (rootPair t).2.isLeafB = false from hroot] at h
  simp only [Bool.not_false] at h
  exact Option.isNone_iff_eq_none.mp h

/-- C6: in every schedule produced by the linearizer, every child-position
entry other than the `-1` sentinel is strictly smaller than the row's own
position, and the final row's own position is the position assigned to the
tree root. -/
theorem claim_C6_schedule_invariant (t : PyTree) (md : Option Nat) :
    (∀ row ∈ treeSched t md, ∀ e ∈ row.dropLast, e ≠ -1 → e < row.getLastD 0) ∧
    (treeSched t md ≠ [] → ((treeSched t md).getLastD []).getLastD 0 = idxVal t []) := by
  constructor
  · intro row hrow e he hne
    unfold treeSched at hrow
    split at hrow
    · exact absurd hrow (List.not_mem_nil row)
    · obtain ⟨ik, hik, rfl⟩ := List.mem_map.mp hrow
      obtain ⟨i, pr⟩ := ik
      obtain ⟨hi, hgi⟩ := List.getElem?_eq_some.mp (enum_mem_getElem hik)
      exact schedRow_child_lt hi hgi he hne
  · intro hne
    have hroot : t.isLeafB = false := by
      cases hr : t.isLeafB
      · rfl
      · exfalso
        have hempty := internalSeq_empty_of_leaf_root t hr
        unfold treeSched at hne
        split at hne
        · exact hne rfl
        · rw [hempty] at hne
          exact hne rfl
    have hnotempty : t.children.isEmpty = false := by
      cases hc : t.children.isEmpty
      · rfl
      · exfalso
        obtain ⟨v, cs⟩ := t
        have hcs : cs = [] := by simpa [PyTree.children, List.isEmpty_iff] using hc
        subst hcs
        simp [PyTree.isLeafB, PyTree.children] at hroot
    have hII := internalIdxOf_root t hroot
    have hLN := leafIdxOf_root_none t hroot
    have hiv := idxVal_eq_internal hLN hII
    set X := (((bfsLayers nextLayer t.numNodes (nextLayer [rootPair t])).reverse).flatten).filter
      (fun pr => (leafIdxOf t pr.1).isNone) with hXdef
    have hsplit := internalSeq_root_split t hroot
    unfold treeSched
    simp only [hnotempty, Bool.false_eq_true, if_false]
    rw [hsplit, List.enum_append,
      show List.enumFrom X.length [rootPair t] = [(X.length, rootPair t)] from rfl,
      List.map_append,
      show List.map (fun ik => schedRow t md ik.1 ik.2) [(X.length, rootPair t)] =
        [schedRow t md X.length (rootPair t)] from rfl,
      List.getLastD_concat]
    unfold schedRow
    rw [List.getLastD_concat, hiv]
    have hXlen : (internalSeq t).length - 1 = X.length := by
      rw [hsplit, ← hXdef, List.length_append, List.length_singleton]
      omega
    rw [hXlen]

/-- C6 witness: concrete four-node tree; an entry of the last row is below
its own position, and the final row's own position is the root's. -/
theorem claim_C6_witness :
    ((2 : Int) < ([2, 1, 3] : List Int).getLastD 0) ∧
    ((treeSched exTree2 (some 2)).getLastD []).getLastD 0 = idxVal exTree2 [] :=
  ⟨(claim_C6_schedule_invariant exTree2 (some 2)).1 [2, 1, 3] (by decide) 2 (by decide)
      (by decide),
   (claim_C6_schedule_invariant exTree2 (some 2)).2 (by decide)⟩

/-- C7 witness: on the concrete four-node tree the first leaf of the leaf
sequence is assigned position 0. -/
theorem claim_C7_witness :
    leafIdxOf exTree2 ((leafSeq exTree2).get ⟨0, by decide⟩).1 = some 0 :=
  (claim_C7_leaf_order exTree2).2 0 (by decide)
